import Mathlib

/-
Shallow embedding of the hitree repository (src/hitree/src/lib.rs and
src/hitree/src/hiset.rs): an indexable ordered set stored in a balanced
binary tree with subtree node counts.  Mutating Rust methods on the
subtree reference type become pure functions returning the result value
paired with the updated subtree.
-/

namespace Hitree

/-- Fuel-bounded bit length: number of binary digits of n, computed by
repeated halving, with 64 division steps available (usize is 64 bits wide). -/
def bitlenAux : Nat → Nat → Nat
  | 0, _ => 0
  | fuel + 1, n => if n = 0 then 0 else bitlenAux fuel (n / 2) + 1

/-- Embeds tree_height in lib.rs, which computes
(0_usize.leading_zeros() - count.leading_zeros()) as isize, i.e. 64 minus the
count of leading zero bits of count: the bit length of count (0 for 0,
floor(log2 n) + 1 for n > 0), exact for every count below 2 to the 64. -/
def tree_height (count : Nat) : Int :=
  (bitlenAux 64 count : Int)

/-- Embeds Rust Ord::cmp for a type with a lawful total order. -/
def rcmp {α : Type} [LinearOrder α] (a b : α) : Ordering :=
  if a < b then Ordering.lt else if b < a then Ordering.gt else Ordering.eq

/-- Embeds the pair Ref/Node of hiset.rs.  A Ref owns a cached count and an
optional boxed Node; a Node owns a value and two child Refs.  Constructor nil c
is Ref with count c and node None; constructor node c v l r is Ref with
count c and node Some(Node with value v, left l, right r). -/
inductive Ref (α : Type) : Type where
  | nil (count : Nat)
  | node (count : Nat) (value : α) (left right : Ref α)
deriving DecidableEq

namespace Ref

variable {α : Type}

/-- The stored (cached) count field of a Ref. -/
def count : Ref α → Nat
  | .nil c => c
  | .node c _ _ _ => c

/-- Number of nodes actually present in the subtree (not the cached field). -/
def size : Ref α → Nat
  | .nil _ => 0
  | .node _ _ l r => l.size + r.size + 1

/-- Embeds Ref::is_empty: self.node.is_none(). -/
def isEmpty : Ref α → Bool
  | .nil _ => true
  | .node _ _ _ _ => false

/-- In-order traversal of the stored values. -/
def inorder : Ref α → List α
  | .nil _ => []
  | .node _ v l r => l.inorder ++ v :: r.inorder

/-- The count invariant of the spec: every reachable reference stores
count = 1 + left.count + right.count when it owns a node, and count = 0
when it is empty. -/
def wf : Ref α → Prop
  | .nil c => c = 0
  | .node c _ l r => c = 1 + l.count + r.count ∧ l.wf ∧ r.wf

instance instDecidableWf : (t : Ref α) → Decidable t.wf
  | .nil c => decidable_of_iff (c = 0) (by simp [wf])
  | .node c v l r =>
    haveI := instDecidableWf l
    haveI := instDecidableWf r
    decidable_of_iff (c = 1 + l.count + r.count ∧ l.wf ∧ r.wf) (by simp [wf])

/-- Embeds Node::balance (and Ref::balance, which unwraps the node):
tree_height(right.count) - tree_height(left.count).  The nil case never
arises in the embedded code paths, where balance is only read on a Ref
that owns a node. -/
def balance : Ref α → Int
  | .nil _ => 0
  | .node _ _ l r => tree_height r.count - tree_height l.count

/-- Every node of the subtree has balance factor within -1..1. -/
def allBalanced : Ref α → Prop
  | .nil _ => True
  | .node c v l r =>
      (-1 ≤ (Ref.node c v l r).balance ∧ (Ref.node c v l r).balance ≤ 1)
      ∧ l.allBalanced ∧ r.allBalanced

instance instDecidableAllBalanced : (t : Ref α) → Decidable t.allBalanced
  | .nil _ => decidable_of_iff True (by simp [allBalanced])
  | .node c v l r =>
    haveI := instDecidableAllBalanced l
    haveI := instDecidableAllBalanced r
    decidable_of_iff
      ((-1 ≤ (Ref.node c v l r).balance ∧ (Ref.node c v l r).balance ≤ 1)
        ∧ l.allBalanced ∧ r.allBalanced)
      (by simp [allBalanced])

/-- Embeds Ref::take_left_subtree: takes the left child out (replacing it by
the default empty Ref) and subtracts its count from the own cached count. -/
def take_left_subtree : Ref α → Ref α × Ref α
  | .nil c => (.nil 0, .nil c)
  | .node c v l r => (l, .node (c - l.count) v (.nil 0) r)

/-- Embeds Ref::take_right_subtree. -/
def take_right_subtree : Ref α → Ref α × Ref α
  | .nil c => (.nil 0, .nil c)
  | .node c v l r => (r, .node (c - r.count) v l (.nil 0))

/-- Embeds Ref::set_left: stores the subtree as left child and recomputes the
cached count from the direct children.  The nil case corresponds to the
unwrap panic in the source and never arises in the embedded code paths. -/
def set_left (self subtree : Ref α) : Ref α :=
  match self with
  | .nil c => .nil c
  | .node _ v _ r => .node (subtree.count + r.count + 1) v subtree r

/-- Embeds Ref::set_right. -/
def set_right (self subtree : Ref α) : Ref α :=
  match self with
  | .nil c => .nil c
  | .node _ v l _ => .node (l.count + subtree.count + 1) v l subtree

/-- Embeds Ref::rotate_left. -/
def rotate_left (self : Ref α) : Ref α :=
  let p := self.take_right_subtree
  let q := p.1.take_left_subtree
  q.2.set_left (p.2.set_right q.1)

/-- Embeds Ref::rotate_right. -/
def rotate_right (self : Ref α) : Ref α :=
  let p := self.take_left_subtree
  let q := p.1.take_right_subtree
  q.2.set_right (p.2.set_left q.1)

/-- Embeds Ref::insert.  Returns the inserted flag and the updated subtree. -/
def insert [LinearOrder α] (v : α) : Ref α → Bool × Ref α
  | .nil _ => (true, .node 1 v (.nil 0) (.nil 0))
  | .node c w l r =>
    match rcmp w v with
    | .eq => (false, .node c w l r)
    | .lt =>
      match r.insert v with
      | (true, r') =>
        (true,
          if (Ref.node (c + 1) w l r').balance > 1 then
            (Ref.node (c + 1) w l r').rotate_left
          else Ref.node (c + 1) w l r')
      | (false, r') => (false, .node c w l r')
    | .gt =>
      match l.insert v with
      | (true, l') =>
        (true,
          if (Ref.node (c + 1) w l' r).balance < -1 then
            (Ref.node (c + 1) w l' r).rotate_right
          else Ref.node (c + 1) w l' r)
      | (false, l') => (false, .node c w l' r)

/-- Embeds Ref::take_leftmost_node.  The removed node is returned with its
remaining child references exactly as the source leaves them. -/
def take_leftmost_node : Ref α → Option (α × Ref α × Ref α) × Ref α
  | .nil c => (none, .nil c)
  | .node c v l r =>
    match l.take_leftmost_node with
    | (none, l') => (some (v, l', .nil 0), r)
    | (some nd, l') =>
      (some nd,
        if (Ref.node (c - 1) v l' r).balance > 1 then
          (Ref.node (c - 1) v l' r).rotate_left
        else Ref.node (c - 1) v l' r)

/-- Embeds Ref::take_rightmost_node.  Note that the source recurses with
take_leftmost_node on the right subtree (hiset.rs line 927), which this
embedding reproduces verbatim. -/
def take_rightmost_node : Ref α → Option (α × Ref α × Ref α) × Ref α
  | .nil c => (none, .nil c)
  | .node c v l r =>
    match r.take_leftmost_node with
    | (none, r') => (some (v, .nil 0, r'), l)
    | (some nd, r') =>
      (some nd,
        if (Ref.node (c - 1) v l r').balance < -1 then
          (Ref.node (c - 1) v l r').rotate_right
        else Ref.node (c - 1) v l r')

/-- Embeds Ref::rebalance: resynchronize the cached count from the direct
children, then apply at most one corrective rotation. -/
def rebalance : Ref α → Ref α
  | .nil _ => .nil 0
  | .node _ v l r =>
    if (Ref.node (l.count + r.count + 1) v l r).balance < -1 then
      (Ref.node (l.count + r.count + 1) v l r).rotate_right
    else if (Ref.node (l.count + r.count + 1) v l r).balance > 1 then
      (Ref.node (l.count + r.count + 1) v l r).rotate_left
    else Ref.node (l.count + r.count + 1) v l r

/-- Embeds Ref::take_node_by_key. -/
def take_node_by_key [LinearOrder α] (key : α) :
    Ref α → Option (α × Ref α × Ref α) × Ref α
  | .nil c => (none, .nil c)
  | .node c v l r =>
    let p : Option (α × Ref α × Ref α) × Ref α :=
      match rcmp v key with
      | .eq =>
        match l.isEmpty, r.isEmpty with
        | true, true => (some (v, l, r), .nil c)
        | false, true => (some (v, .nil 0, r), l)
        | true, false => (some (v, l, .nil 0), r)
        | false, false =>
          if l.count > r.count then
            match l.take_rightmost_node with
            | (some (w, _, _), l') =>
                (some (v, .nil 0, .nil 0), Ref.node (l'.count + r.count + 1) w l' r)
            | (none, _) => (none, Ref.node c v l r)
          else
            match r.take_leftmost_node with
            | (some (w, _, _), r') =>
                (some (v, .nil 0, .nil 0), Ref.node (l.count + r'.count + 1) w l r')
            | (none, _) => (none, Ref.node c v l r)
      | .lt =>
        match r.take_node_by_key key with
        | (res, r') => (res, Ref.node c v l r')
      | .gt =>
        match l.take_node_by_key key with
        | (res, l') => (res, Ref.node c v l' r)
    if p.1.isSome then (p.1, p.2.rebalance) else p

/-- Embeds Ref::take_node_by_index. -/
def take_node_by_index : Ref α → Nat → Option (α × Ref α × Ref α) × Ref α
  | .nil c, _ => (none, .nil c)
  | .node c v l r, i =>
    let p : Option (α × Ref α × Ref α) × Ref α :=
      match rcmp l.count i with
      | .eq =>
        match l.isEmpty, r.isEmpty with
        | true, true => (some (v, l, r), .nil c)
        | false, true => (some (v, .nil 0, r), l)
        | true, false => (some (v, l, .nil 0), r)
        | false, false =>
          if l.count > r.count then
            match l.take_rightmost_node with
            | (some (w, _, _), l') =>
                (some (v, .nil 0, .nil 0), Ref.node (l'.count + r.count + 1) w l' r)
            | (none, _) => (none, Ref.node c v l r)
          else
            match r.take_leftmost_node with
            | (some (w, _, _), r') =>
                (some (v, .nil 0, .nil 0), Ref.node (l.count + r'.count + 1) w l r')
            | (none, _) => (none, Ref.node c v l r)
      | .lt =>
        match r.take_node_by_index (i - l.count - 1) with
        | (res, r') => (res, Ref.node c v l r')
      | .gt =>
        match l.take_node_by_index i with
        | (res, l') => (res, Ref.node c v l' r)
    if p.1.isSome then (p.1, p.2.rebalance) else p

/-- Embeds the descent loop of HiSet::get_by_index. -/
def get_by_index : Ref α → Nat → Option α
  | .nil _, _ => none
  | .node _ v l r, i =>
    match rcmp l.count i with
    | .gt => l.get_by_index i
    | .eq => some v
    | .lt => r.get_by_index (i - 1 - l.count)

/-- Embeds the descent loop of HiSet::index_of; the second argument is the
running current_index_shift accumulator, 0 at the root. -/
def index_of [LinearOrder α] (key : α) : Ref α → Nat → Option Nat
  | .nil _, _ => none
  | .node _ v l r, shift =>
    match rcmp v key with
    | .gt => l.index_of key shift
    | .eq => some (shift + l.count)
    | .lt => r.index_of key (shift + 1 + l.count)

end Ref

/-- Embeds HiSet: the public container owning the root reference. -/
structure HiSet (α : Type) where
  root : Ref α
deriving DecidableEq

namespace HiSet

variable {α : Type}

/-- Embeds HiSet::new. -/
def new : HiSet α := ⟨.nil 0⟩

/-- Embeds HiSet::len: reads the root count. -/
def len (s : HiSet α) : Nat := s.root.count

/-- Embeds HiSet::insert. -/
def insert [LinearOrder α] (s : HiSet α) (v : α) : Bool × HiSet α :=
  ((s.root.insert v).1, ⟨(s.root.insert v).2⟩)

/-- Embeds HiSet::take_first. -/
def take_first (s : HiSet α) : Option α × HiSet α :=
  ((s.root.take_leftmost_node).1.map (fun nd => nd.1), ⟨(s.root.take_leftmost_node).2⟩)

/-- Embeds HiSet::take_last. -/
def take_last (s : HiSet α) : Option α × HiSet α :=
  ((s.root.take_rightmost_node).1.map (fun nd => nd.1), ⟨(s.root.take_rightmost_node).2⟩)

/-- Embeds HiSet::take. -/
def take [LinearOrder α] (s : HiSet α) (key : α) : Option α × HiSet α :=
  ((s.root.take_node_by_key key).1.map (fun nd => nd.1),
   ⟨(s.root.take_node_by_key key).2⟩)

/-- Embeds HiSet::take_by_index. -/
def take_by_index (s : HiSet α) (i : Nat) : Option α × HiSet α :=
  ((s.root.take_node_by_index i).1.map (fun nd => nd.1),
   ⟨(s.root.take_node_by_index i).2⟩)

/-- Embeds HiSet::get_by_index. -/
def get_by_index (s : HiSet α) (i : Nat) : Option α :=
  s.root.get_by_index i

/-- Embeds HiSet::index_of. -/
def index_of [LinearOrder α] (s : HiSet α) (key : α) : Option Nat :=
  s.root.index_of key 0

end HiSet

/-- A public mutating operation of the container.  The read-only operations
(get, get_mut, get_by_index, get_by_index_mut, index_of, iteration) do not
change the tree in this functional embedding, so closure under the mutating
operations describes every state reachable through the public API. -/
inductive Op (α : Type) where
  | ins (v : α)
  | takeKey (k : α)
  | takeIdx (i : Nat)
  | tFirst
  | tLast
deriving DecidableEq

/-- Apply one public mutating operation, keeping the updated set. -/
def HiSet.applyOp {α : Type} [LinearOrder α] (s : HiSet α) : Op α → HiSet α
  | .ins v => (s.insert v).2
  | .takeKey k => (s.take k).2
  | .takeIdx i => (s.take_by_index i).2
  | .tFirst => s.take_first.2
  | .tLast => s.take_last.2

/-- Apply a sequence of public mutating operations from left to right. -/
def HiSet.applyOps {α : Type} [LinearOrder α] (s : HiSet α) (ops : List (Op α)) : HiSet α :=
  ops.foldl HiSet.applyOp s

/-- A set reachable from empty through public operations. -/
def Reachable {α : Type} [LinearOrder α] (s : HiSet α) : Prop :=
  ∃ ops : List (Op α), s = HiSet.new.applyOps ops

/-- Embeds one bound of the RangeBounds argument of HiSet::range. -/
inductive Bound where
  | included (i : Nat)
  | excluded (i : Nat)
  | unbounded
deriving DecidableEq

/-- Size of the usize value space: additions on usize wrap modulo this. -/
def usizeSize : Nat := 2 ^ 64

/-- Embeds HiSetIterator: a borrowing double-ended iterator over the index
window from start (inclusive) to stop (exclusive; named end in the source). -/
structure HiSetIterator (α : Type) where
  set : HiSet α
  start : Nat
  stop : Nat
deriving DecidableEq

/-- Embeds HiSet::range.  The source computes *index + 1 on usize without an
overflow guard for Excluded start bounds and Included end bounds; unchecked
usize addition wraps modulo 2 to the 64, which the embedding makes explicit. -/
def HiSet.range {α : Type} (s : HiSet α) (sb eb : Bound) : HiSetIterator α :=
  { set := s
    start :=
      match sb with
      | .included i => i
      | .excluded i => (i + 1) % usizeSize
      | .unbounded => 0
    stop :=
      match eb with
      | .included i => (i + 1) % usizeSize
      | .excluded i => i
      | .unbounded => s.root.count }

/-- Embeds HiSet::iter: the full window from 0 to the root count. -/
def HiSet.iter {α : Type} (s : HiSet α) : HiSetIterator α :=
  { set := s, start := 0, stop := s.root.count }

/-- Embeds Iterator::next for HiSetIterator. -/
def HiSetIterator.next {α : Type} (it : HiSetIterator α) : Option α × HiSetIterator α :=
  if it.start ≥ it.stop then (none, it)
  else (it.set.get_by_index it.start, { it with start := it.start + 1 })

/-- Embeds DoubleEndedIterator::next_back for HiSetIterator. -/
def HiSetIterator.next_back {α : Type} (it : HiSetIterator α) : Option α × HiSetIterator α :=
  if it.start ≥ it.stop then (none, it)
  else (it.set.get_by_index (it.stop - 1), { it with stop := it.stop - 1 })

/-- Collect up to fuel forward steps of the iterator, stopping at None. -/
def HiSetIterator.collect {α : Type} : Nat → HiSetIterator α → List α
  | 0, _ => []
  | fuel + 1, it =>
    match it.next with
    | (none, _) => []
    | (some v, it') => v :: collect fuel it'

/-- Collect up to fuel backward steps of the iterator, stopping at None. -/
def HiSetIterator.collectBack {α : Type} : Nat → HiSetIterator α → List α
  | 0, _ => []
  | fuel + 1, it =>
    match it.next_back with
    | (none, _) => []
    | (some v, it') => v :: collectBack fuel it'

/-- Operation sequence exhibiting the take_rightmost_node slip through
take(10): it hits a two-child node whose left subtree is larger. -/
def brokenOps : List (Op Nat) :=
  [.ins 10, .ins 5, .ins 15, .ins 3, .ins 7, .ins 12, .ins 8, .takeKey 10]

/-- Operation sequence after which the root balance factor is -2. -/
def balOps : List (Op Nat) :=
  [.ins 10, .ins 2, .ins 13, .ins 1, .ins 12, .ins 14, .ins 11, .tFirst]

/-- A small reachable set used to witness the count invariant. -/
def c4demo : HiSet Nat := HiSet.new.applyOps [.ins 3, .ins 1, .ins 2, .takeIdx 1, .ins 5]

/-- A small reachable set used to witness the untouched-on-miss property. -/
def c8demo : HiSet Nat := HiSet.new.applyOps [.ins 1, .ins 2, .ins 3]

/-- The set built by inserting 0,1,2,3,4,5,6 in order, as in the range scenario. -/
def rangeDemo : HiSet Nat := HiSet.new.applyOps ((List.range 7).map Op.ins)


/-! ### Basic lemmas about the embedded primitives -/

theorem rcmp_eq_iff {α : Type} [LinearOrder α] {a b : α} :
    rcmp a b = Ordering.eq ↔ a = b := by
  unfold rcmp
  split_ifs with h1 h2
  · exact ⟨(fun h => nomatch h), fun h => absurd h (ne_of_lt h1)⟩
  · exact ⟨(fun h => nomatch h), fun h => absurd h (ne_of_gt h2)⟩
  · exact ⟨fun _ => le_antisymm (not_lt.mp h2) (not_lt.mp h1), fun _ => rfl⟩

theorem rcmp_lt_iff {α : Type} [LinearOrder α] {a b : α} :
    rcmp a b = Ordering.lt ↔ a < b := by
  unfold rcmp
  split_ifs with h1 h2
  · exact ⟨fun _ => h1, fun _ => rfl⟩
  · exact ⟨(fun h => nomatch h), fun h => absurd h h1⟩
  · exact ⟨(fun h => nomatch h), fun h => absurd h h1⟩

theorem rcmp_gt_iff {α : Type} [LinearOrder α] {a b : α} :
    rcmp a b = Ordering.gt ↔ b < a := by
  unfold rcmp
  split_ifs with h1 h2
  · exact ⟨(fun h => nomatch h), fun h => absurd h (lt_asymm h1)⟩
  · exact ⟨fun _ => h2, fun _ => rfl⟩
  · exact ⟨(fun h => nomatch h), fun h => absurd h h2⟩

theorem th_nonneg (n : Nat) : 0 ≤ tree_height n :=
  Int.natCast_nonneg _

theorem th_le_one {n : Nat} (h : n ≤ 1) : tree_height n ≤ 1 := by
  interval_cases n <;> decide

theorem two_le_of_one_lt_th {n : Nat} (h : 1 < tree_height n) : 2 ≤ n := by
  by_contra hc
  push_neg at hc
  exact absurd h (not_lt.mpr (th_le_one (by omega)))

namespace Ref

variable {α : Type}

@[simp] theorem count_nil (c : Nat) : (Ref.nil (α := α) c).count = c := rfl

@[simp] theorem count_node (c : Nat) (v : α) (l r : Ref α) :
    (Ref.node c v l r).count = c := rfl

@[simp] theorem size_nil (c : Nat) : (Ref.nil (α := α) c).size = 0 := rfl

@[simp] theorem size_node (c : Nat) (v : α) (l r : Ref α) :
    (Ref.node c v l r).size = l.size + r.size + 1 := rfl

@[simp] theorem wf_nil_iff (c : Nat) : (Ref.nil (α := α) c).wf ↔ c = 0 := Iff.rfl

@[simp] theorem wf_node_iff (c : Nat) (v : α) (l r : Ref α) :
    (Ref.node c v l r).wf ↔ c = 1 + l.count + r.count ∧ l.wf ∧ r.wf := Iff.rfl

@[simp] theorem inorder_nil (c : Nat) : (Ref.nil (α := α) c).inorder = [] := rfl

@[simp] theorem inorder_node (c : Nat) (v : α) (l r : Ref α) :
    (Ref.node c v l r).inorder = l.inorder ++ v :: r.inorder := rfl

@[simp] theorem isEmpty_nil (c : Nat) : (Ref.nil (α := α) c).isEmpty = true := rfl

@[simp] theorem isEmpty_node (c : Nat) (v : α) (l r : Ref α) :
    (Ref.node c v l r).isEmpty = false := rfl

@[simp] theorem balance_node (c : Nat) (v : α) (l r : Ref α) :
    (Ref.node c v l r).balance = tree_height r.count - tree_height l.count := rfl

theorem wf_count : ∀ {t : Ref α}, t.wf → t.count = t.size
  | .nil _, h => by simpa using h
  | .node c v l r, h => by
    obtain ⟨hc, hl, hr⟩ := h
    have h1 := wf_count hl
    have h2 := wf_count hr
    simp only [count_node, size_node]
    omega

theorem node_of_count_pos {t : Ref α} (hwf : t.wf) (hpos : 0 < t.count) :
    ∃ c v l r, t = Ref.node c v l r := by
  cases t with
  | nil c =>
    rw [wf_nil_iff] at hwf
    simp [hwf] at hpos
  | node c v l r => exact ⟨c, v, l, r, rfl⟩

theorem right_node_of_balance_pos {c : Nat} {v : α} {l r : Ref α} (hr : r.wf)
    (h : 1 < (Ref.node c v l r).balance) :
    ∃ rc rv rl rr, r = Ref.node rc rv rl rr := by
  apply node_of_count_pos hr
  rw [balance_node] at h
  have h0 := th_nonneg l.count
  have h2 : 1 < tree_height r.count := by omega
  have := two_le_of_one_lt_th h2
  omega

theorem left_node_of_balance_neg {c : Nat} {v : α} {l r : Ref α} (hl : l.wf)
    (h : (Ref.node c v l r).balance < -1) :
    ∃ lc lv ll lr, l = Ref.node lc lv ll lr := by
  apply node_of_count_pos hl
  rw [balance_node] at h
  have h0 := th_nonneg r.count
  have h2 : 1 < tree_height l.count := by omega
  have := two_le_of_one_lt_th h2
  omega

theorem rotate_left_eq (c : Nat) (v : α) (l : Ref α) (rc : Nat) (rv : α) (rl rr : Ref α) :
    (Ref.node c v l (Ref.node rc rv rl rr)).rotate_left
      = Ref.node (l.count + rl.count + 1 + rr.count + 1) rv
          (Ref.node (l.count + rl.count + 1) v l rl) rr := rfl

theorem rotate_right_eq (c : Nat) (v : α) (lc : Nat) (lv : α) (ll lr : Ref α) (r : Ref α) :
    (Ref.node c v (Ref.node lc lv ll lr) r).rotate_right
      = Ref.node (ll.count + (lr.count + r.count + 1) + 1) lv ll
          (Ref.node (lr.count + r.count + 1) v lr r) := rfl

theorem rotate_left_wf {c : Nat} {v : α} {l : Ref α} {rc : Nat} {rv : α} {rl rr : Ref α}
    (h : (Ref.node c v l (Ref.node rc rv rl rr)).wf) :
    (Ref.node c v l (Ref.node rc rv rl rr)).rotate_left.wf ∧
    (Ref.node c v l (Ref.node rc rv rl rr)).rotate_left.size
      = (Ref.node c v l (Ref.node rc rv rl rr)).size := by
  simp only [wf_node_iff, count_node] at h
  obtain ⟨hc, hl, hrc, hrl, hrr⟩ := h
  rw [rotate_left_eq]
  simp only [wf_node_iff, count_node, size_node]
  exact ⟨⟨by omega, ⟨by omega, hl, hrl⟩, hrr⟩, by omega⟩

theorem rotate_right_wf {c : Nat} {v : α} {lc : Nat} {lv : α} {ll lr : Ref α} {r : Ref α}
    (h : (Ref.node c v (Ref.node lc lv ll lr) r).wf) :
    (Ref.node c v (Ref.node lc lv ll lr) r).rotate_right.wf ∧
    (Ref.node c v (Ref.node lc lv ll lr) r).rotate_right.size
      = (Ref.node c v (Ref.node lc lv ll lr) r).size := by
  simp only [wf_node_iff, count_node] at h
  obtain ⟨hc, ⟨hlc, hll, hlr⟩, hr⟩ := h
  rw [rotate_right_eq]
  simp only [wf_node_iff, count_node, size_node]
  exact ⟨⟨by omega, hll, ⟨by omega, hlr, hr⟩⟩, by omega⟩

theorem rebalance_wf {c : Nat} {v : α} {l r : Ref α} (hl : l.wf) (hr : r.wf) :
    (Ref.node c v l r).rebalance.wf ∧
    (Ref.node c v l r).rebalance.size = l.size + r.size + 1 := by
  have hwf : (Ref.node (l.count + r.count + 1) v l r).wf := by
    simp only [wf_node_iff]
    exact ⟨by omega, hl, hr⟩
  simp only [Ref.rebalance]
  split_ifs with hneg hpos
  · obtain ⟨lc, lv, ll, lr, hleq⟩ := left_node_of_balance_neg hl hneg
    subst hleq
    have h := rotate_right_wf hwf
    exact ⟨h.1, by rw [h.2]; simp⟩
  · obtain ⟨rc, rv, rl, rr, hreq⟩ := right_node_of_balance_pos hr hpos
    subst hreq
    have h := rotate_left_wf hwf
    exact ⟨h.1, by rw [h.2]; simp⟩
  · exact ⟨hwf, by simp⟩

theorem insert_wf [LinearOrder α] (v : α) (t : Ref α) : t.wf →
    (t.insert v).2.wf ∧
    (t.insert v).2.size = t.size + (t.insert v).1.toNat := by
  induction t with
  | nil c =>
    intro _
    simp [Ref.insert, wf_node_iff]
  | node c w l r ihl ihr =>
    intro h
    simp only [wf_node_iff] at h
    obtain ⟨hc, hl, hr⟩ := h
    have hlc := wf_count hl
    have hrc := wf_count hr
    rcases hcmp : rcmp w v with _ | _ | _
    · -- lt: insert into the right subtree
      have ih := ihr hr
      rcases hins : r.insert v with ⟨b, r'⟩
      rw [hins] at ih
      dsimp only at ih
      obtain ⟨ihw, ihs⟩ := ih
      have hrc' := wf_count ihw
      cases b with
      | true =>
        simp only [Bool.toNat_true] at ihs
        have hwf : (Ref.node (c + 1) w l r').wf := ⟨by omega, hl, ihw⟩
        simp only [Ref.insert, hcmp, hins]
        split_ifs with hbal
        · obtain ⟨rc, rv, rl, rr, hre⟩ := right_node_of_balance_pos ihw hbal
          subst hre
          have hrot := rotate_left_wf hwf
          refine ⟨hrot.1, ?_⟩
          rw [hrot.2]
          simp only [size_node, count_node, Bool.toNat_true] at *
          omega
        · exact ⟨hwf, by simp only [size_node, Bool.toNat_true]; omega⟩
      | false =>
        simp only [Bool.toNat_false] at ihs
        simp only [Ref.insert, hcmp, hins]
        refine ⟨⟨by omega, hl, ihw⟩, ?_⟩
        simp only [size_node, Bool.toNat_false]
        omega
    · -- eq: duplicate value
      simp only [Ref.insert, hcmp]
      exact ⟨⟨hc, hl, hr⟩, by simp⟩
    · -- gt: insert into the left subtree
      have ih := ihl hl
      rcases hins : l.insert v with ⟨b, l'⟩
      rw [hins] at ih
      dsimp only at ih
      obtain ⟨ihw, ihs⟩ := ih
      have hlc' := wf_count ihw
      cases b with
      | true =>
        simp only [Bool.toNat_true] at ihs
        have hwf : (Ref.node (c + 1) w l' r).wf := ⟨by omega, ihw, hr⟩
        simp only [Ref.insert, hcmp, hins]
        split_ifs with hbal
        · obtain ⟨lc, lv, ll, lr, hle⟩ := left_node_of_balance_neg ihw hbal
          subst hle
          have hrot := rotate_right_wf hwf
          refine ⟨hrot.1, ?_⟩
          rw [hrot.2]
          simp only [size_node, count_node, Bool.toNat_true] at *
          omega
        · exact ⟨hwf, by simp only [size_node, Bool.toNat_true]; omega⟩
      | false =>
        simp only [Bool.toNat_false] at ihs
        simp only [Ref.insert, hcmp, hins]
        refine ⟨⟨by omega, ihw, hr⟩, ?_⟩
        simp only [size_node, Bool.toNat_false]
        omega

theorem take_leftmost_wf (t : Ref α) : t.wf →
    t.take_leftmost_node.2.wf ∧
    t.take_leftmost_node.2.size + t.take_leftmost_node.1.isSome.toNat = t.size ∧
    (t.take_leftmost_node.1.isSome ↔ 0 < t.size) := by
  induction t with
  | nil c =>
    intro h
    simp only [wf_nil_iff] at h
    subst h
    simp [Ref.take_leftmost_node, wf_nil_iff]
  | node c v l r ihl ihr =>
    intro h
    simp only [wf_node_iff] at h
    obtain ⟨hc, hl, hr⟩ := h
    have hlc := wf_count hl
    have hrc := wf_count hr
    have ih := ihl hl
    rcases hm : l.take_leftmost_node with ⟨o, l2⟩
    rw [hm] at ih
    dsimp only at ih
    rcases o with _ | nd
    · -- left had no node: this node is removed, replaced by its right subtree
      simp only [Option.isSome_none, Bool.toNat_false, Bool.false_eq_true, false_iff, not_lt, Nat.le_zero] at ih
      obtain ⟨ihw, ihs, ihz⟩ := ih
      simp only [Ref.take_leftmost_node, hm]
      refine ⟨hr, ?_, ?_⟩
      · simp only [Option.isSome_some, Bool.toNat_true, size_node]
        omega
      · simp only [Option.isSome_some, size_node, true_iff]
        omega
    · -- a node was removed from the left subtree
      simp only [Option.isSome_some, Bool.toNat_true, true_iff] at ih
      obtain ⟨ihw, ihs, ihp⟩ := ih
      have hlc2 := wf_count ihw
      have hwf : (Ref.node (c - 1) v l2 r).wf := ⟨by omega, ihw, hr⟩
      simp only [Ref.take_leftmost_node, hm]
      split_ifs with hbal
      · obtain ⟨rc, rv, rl, rr, hre⟩ := right_node_of_balance_pos hr hbal
        subst hre
        have hrot := rotate_left_wf hwf
        refine ⟨hrot.1, ?_, ?_⟩
        · rw [hrot.2]
          simp only [Option.isSome_some, Bool.toNat_true, size_node, count_node] at *
          omega
        · simp only [Option.isSome_some, size_node, true_iff]
          omega
      · refine ⟨hwf, ?_, ?_⟩
        · simp only [Option.isSome_some, Bool.toNat_true, size_node]
          omega
        · simp only [Option.isSome_some, size_node, true_iff]
          omega

theorem take_rightmost_wf (t : Ref α) (h : t.wf) :
    t.take_rightmost_node.2.wf ∧
    t.take_rightmost_node.2.size + t.take_rightmost_node.1.isSome.toNat = t.size ∧
    (t.take_rightmost_node.1.isSome ↔ 0 < t.size) := by
  cases t with
  | nil c =>
    simp only [wf_nil_iff] at h
    subst h
    simp [Ref.take_rightmost_node, wf_nil_iff]
  | node c v l r =>
    simp only [wf_node_iff] at h
    obtain ⟨hc, hl, hr⟩ := h
    have hlc := wf_count hl
    have hrc := wf_count hr
    have ih := take_leftmost_wf r hr
    rcases hm : r.take_leftmost_node with ⟨o, r2⟩
    rw [hm] at ih
    dsimp only at ih
    rcases o with _ | nd
    · -- right had no node: this node is removed, replaced by its left subtree
      simp only [Option.isSome_none, Bool.toNat_false, Bool.false_eq_true, false_iff, not_lt, Nat.le_zero] at ih
      obtain ⟨ihw, ihs, ihz⟩ := ih
      simp only [Ref.take_rightmost_node, hm]
      refine ⟨hl, ?_, ?_⟩
      · simp only [Option.isSome_some, Bool.toNat_true, size_node]
        omega
      · simp only [Option.isSome_some, size_node, true_iff]
        omega
    · -- a node was removed from the right subtree
      simp only [Option.isSome_some, Bool.toNat_true, true_iff] at ih
      obtain ⟨ihw, ihs, ihp⟩ := ih
      have hrc2 := wf_count ihw
      have hwf : (Ref.node (c - 1) v l r2).wf := ⟨by omega, hl, ihw⟩
      simp only [Ref.take_rightmost_node, hm]
      split_ifs with hbal
      · obtain ⟨lc, lv, ll, lr, hle⟩ := left_node_of_balance_neg hl hbal
        subst hle
        have hrot := rotate_right_wf hwf
        refine ⟨hrot.1, ?_, ?_⟩
        · rw [hrot.2]
          simp only [Option.isSome_some, Bool.toNat_true, size_node, count_node] at *
          omega
        · simp only [Option.isSome_some, size_node, true_iff]
          omega
      · refine ⟨hwf, ?_, ?_⟩
        · simp only [Option.isSome_some, Bool.toNat_true, size_node]
          omega
        · simp only [Option.isSome_some, size_node, true_iff]
          omega

theorem rebalance_nil (c : Nat) : (Ref.nil (α := α) c).rebalance = Ref.nil 0 := rfl

theorem take_key_wf [LinearOrder α] (k : α) (t : Ref α) : t.wf →
    (t.take_node_by_key k).2.wf ∧
    (t.take_node_by_key k).2.size + (t.take_node_by_key k).1.isSome.toNat = t.size := by
  induction t with
  | nil c =>
    intro h
    simp only [wf_nil_iff] at h
    subst h
    simp [Ref.take_node_by_key, wf_nil_iff]
  | node c v l r ihl ihr =>
    intro h
    simp only [wf_node_iff] at h
    obtain ⟨hc, hl, hr⟩ := h
    have hlc := wf_count hl
    have hrc := wf_count hr
    rcases hcmp : rcmp v k with _ | _ | _
    · -- lt: remove from the right subtree
      have ih := ihr hr
      rcases hrec : r.take_node_by_key k with ⟨res, r2⟩
      rw [hrec] at ih
      dsimp only at ih
      obtain ⟨ihw, ihs⟩ := ih
      have hrc2 := wf_count ihw
      rcases res with _ | nd
      · simp only [Option.isSome_none, Bool.toNat_false, Nat.add_zero] at ihs
        simp only [Ref.take_node_by_key, hcmp, hrec, Option.isSome_none, Bool.false_eq_true,
          if_false, Bool.toNat_false]
        exact ⟨⟨by omega, hl, ihw⟩, by simp only [size_node]; omega⟩
      · simp only [Option.isSome_some, Bool.toNat_true] at ihs
        have hrb := rebalance_wf (c := c) (v := v) hl ihw
        simp only [Ref.take_node_by_key, hcmp, hrec, Option.isSome_some, if_true,
          Bool.toNat_true]
        exact ⟨hrb.1, by rw [hrb.2]; simp only [size_node]; omega⟩
    · -- eq: this is the node to remove
      cases l with
      | nil lc =>
        cases r with
        | nil rc =>
          simp only [wf_nil_iff] at hl hr
          subst hl
          subst hr
          simp [Ref.take_node_by_key, hcmp, Ref.rebalance, wf_nil_iff]
        | node rc rv rl rr =>
          have hrb := rebalance_wf (c := rc) (v := rv) hr.2.1 hr.2.2
          simp only [Ref.take_node_by_key, hcmp, isEmpty_nil, isEmpty_node,
            Option.isSome_some, if_true, Bool.toNat_true]
          refine ⟨hrb.1, ?_⟩
          rw [hrb.2]
          simp only [size_node, size_nil] at hlc hrc ⊢
          all_goals omega
      | node lc lv ll lr =>
        cases r with
        | nil rc =>
          have hrb := rebalance_wf (c := lc) (v := lv) hl.2.1 hl.2.2
          simp only [Ref.take_node_by_key, hcmp, isEmpty_nil, isEmpty_node,
            Option.isSome_some, if_true, Bool.toNat_true]
          refine ⟨hrb.1, ?_⟩
          rw [hrb.2]
          simp only [size_node, size_nil] at hlc hrc ⊢
          all_goals omega
        | node rc rv rl rr =>
          simp only [Ref.take_node_by_key, hcmp, isEmpty_node]
          by_cases hcnt : (Ref.node lc lv ll lr).count > (Ref.node rc rv rl rr).count
          · rw [if_pos hcnt]
            have htr := take_rightmost_wf (Ref.node lc lv ll lr) hl
            rcases hm : (Ref.node lc lv ll lr).take_rightmost_node with ⟨o, l2⟩
            rw [hm] at htr
            dsimp only at htr
            rcases o with _ | nd
            · exfalso
              have := htr.2.2
              simp only [Option.isSome_none, Bool.false_eq_true, false_iff, not_lt,
                Nat.le_zero, size_node] at this
              omega
            · obtain ⟨w, wl, wr⟩ := nd
              simp only [hm, Option.isSome_some, if_true, Bool.toNat_true]
              obtain ⟨htw, hts, -⟩ := htr
              simp only [Option.isSome_some, Bool.toNat_true, size_node] at hts
              have hl2c := wf_count htw
              have hrb := rebalance_wf (c := l2.count + (Ref.node rc rv rl rr).count + 1)
                (v := w) htw hr
              refine ⟨hrb.1, ?_⟩
              rw [hrb.2]
              simp only [size_node] at *
              omega
          · rw [if_neg hcnt]
            have htl := take_leftmost_wf (Ref.node rc rv rl rr) hr
            rcases hm : (Ref.node rc rv rl rr).take_leftmost_node with ⟨o, r2⟩
            rw [hm] at htl
            dsimp only at htl
            rcases o with _ | nd
            · exfalso
              have := htl.2.2
              simp only [Option.isSome_none, Bool.false_eq_true, false_iff, not_lt,
                Nat.le_zero, size_node] at this
              omega
            · obtain ⟨w, wl, wr⟩ := nd
              simp only [hm, Option.isSome_some, if_true, Bool.toNat_true]
              obtain ⟨htw, hts, -⟩ := htl
              simp only [Option.isSome_some, Bool.toNat_true, size_node] at hts
              have hr2c := wf_count htw
              have hrb := rebalance_wf (c := (Ref.node lc lv ll lr).count + r2.count + 1)
                (v := w) hl htw
              refine ⟨hrb.1, ?_⟩
              rw [hrb.2]
              simp only [size_node] at *
              omega
    · -- gt: remove from the left subtree
      have ih := ihl hl
      rcases hrec : l.take_node_by_key k with ⟨res, l2⟩
      rw [hrec] at ih
      dsimp only at ih
      obtain ⟨ihw, ihs⟩ := ih
      have hlc2 := wf_count ihw
      rcases res with _ | nd
      · simp only [Option.isSome_none, Bool.toNat_false, Nat.add_zero] at ihs
        simp only [Ref.take_node_by_key, hcmp, hrec, Option.isSome_none, Bool.false_eq_true,
          if_false, Bool.toNat_false]
        exact ⟨⟨by omega, ihw, hr⟩, by simp only [size_node]; omega⟩
      · simp only [Option.isSome_some, Bool.toNat_true] at ihs
        have hrb := rebalance_wf (c := c) (v := v) ihw hr
        simp only [Ref.take_node_by_key, hcmp, hrec, Option.isSome_some, if_true,
          Bool.toNat_true]
        exact ⟨hrb.1, by rw [hrb.2]; simp only [size_node]; omega⟩

theorem take_idx_wf (t : Ref α) : t.wf → ∀ i : Nat,
    (t.take_node_by_index i).2.wf ∧
    (t.take_node_by_index i).2.size + (t.take_node_by_index i).1.isSome.toNat = t.size := by
  induction t with
  | nil c =>
    intro h i
    simp only [wf_nil_iff] at h
    subst h
    simp [Ref.take_node_by_index, wf_nil_iff]
  | node c v l r ihl ihr =>
    intro h i
    simp only [wf_node_iff] at h
    obtain ⟨hc, hl, hr⟩ := h
    have hlc := wf_count hl
    have hrc := wf_count hr
    rcases hcmp : rcmp l.count i with _ | _ | _
    · -- lt: remove from the right subtree
      have ih := ihr hr (i - l.count - 1)
      rcases hrec : r.take_node_by_index (i - l.count - 1) with ⟨res, r2⟩
      rw [hrec] at ih
      dsimp only at ih
      obtain ⟨ihw, ihs⟩ := ih
      have hrc2 := wf_count ihw
      rcases res with _ | nd
      · simp only [Option.isSome_none, Bool.toNat_false, Nat.add_zero] at ihs
        simp only [Ref.take_node_by_index, hcmp, hrec, Option.isSome_none, Bool.false_eq_true,
          if_false, Bool.toNat_false]
        exact ⟨⟨by omega, hl, ihw⟩, by simp only [size_node]; omega⟩
      · simp only [Option.isSome_some, Bool.toNat_true] at ihs
        have hrb := rebalance_wf (c := c) (v := v) hl ihw
        simp only [Ref.take_node_by_index, hcmp, hrec, Option.isSome_some, if_true,
          Bool.toNat_true]
        exact ⟨hrb.1, by rw [hrb.2]; simp only [size_node]; omega⟩
    · -- eq: this is the node to remove
      cases l with
      | nil lc =>
        cases r with
        | nil rc =>
          simp only [wf_nil_iff] at hl hr
          subst hl
          subst hr
          simp only [count_nil] at hcmp
          simp [Ref.take_node_by_index, hcmp, Ref.rebalance, wf_nil_iff]
        | node rc rv rl rr =>
          simp only [count_nil] at hcmp
          have hrb := rebalance_wf (c := rc) (v := rv) hr.2.1 hr.2.2
          simp only [Ref.take_node_by_index, count_nil, hcmp, isEmpty_nil, isEmpty_node,
            Option.isSome_some, if_true, Bool.toNat_true]
          refine ⟨hrb.1, ?_⟩
          rw [hrb.2]
          simp only [size_node, size_nil] at hlc hrc ⊢
          all_goals omega
      | node lc lv ll lr =>
        cases r with
        | nil rc =>
          simp only [count_node] at hcmp
          have hrb := rebalance_wf (c := lc) (v := lv) hl.2.1 hl.2.2
          simp only [Ref.take_node_by_index, count_node, hcmp, isEmpty_nil, isEmpty_node,
            Option.isSome_some, if_true, Bool.toNat_true]
          refine ⟨hrb.1, ?_⟩
          rw [hrb.2]
          simp only [size_node, size_nil] at hlc hrc ⊢
          all_goals omega
        | node rc rv rl rr =>
          simp only [count_node] at hcmp
          simp only [Ref.take_node_by_index, count_node, hcmp, isEmpty_node]
          by_cases hcnt : lc > rc
          · rw [if_pos hcnt]
            have htr := take_rightmost_wf (Ref.node lc lv ll lr) hl
            rcases hm : (Ref.node lc lv ll lr).take_rightmost_node with ⟨o, l2⟩
            rw [hm] at htr
            dsimp only at htr
            rcases o with _ | nd
            · exfalso
              have := htr.2.2
              simp only [Option.isSome_none, Bool.false_eq_true, false_iff, not_lt,
                Nat.le_zero, size_node] at this
              omega
            · obtain ⟨w, wl, wr⟩ := nd
              simp only [hm, Option.isSome_some, if_true, Bool.toNat_true]
              obtain ⟨htw, hts, -⟩ := htr
              simp only [Option.isSome_some, Bool.toNat_true, size_node] at hts
              have hl2c := wf_count htw
              have hrb := rebalance_wf (c := l2.count + rc + 1)
                (v := w) htw hr
              refine ⟨hrb.1, ?_⟩
              rw [hrb.2]
              simp only [size_node] at *
              omega
          · rw [if_neg hcnt]
            have htl := take_leftmost_wf (Ref.node rc rv rl rr) hr
            rcases hm : (Ref.node rc rv rl rr).take_leftmost_node with ⟨o, r2⟩
            rw [hm] at htl
            dsimp only at htl
            rcases o with _ | nd
            · exfalso
              have := htl.2.2
              simp only [Option.isSome_none, Bool.false_eq_true, false_iff, not_lt,
                Nat.le_zero, size_node] at this
              omega
            · obtain ⟨w, wl, wr⟩ := nd
              simp only [hm, Option.isSome_some, if_true, Bool.toNat_true]
              obtain ⟨htw, hts, -⟩ := htl
              simp only [Option.isSome_some, Bool.toNat_true, size_node] at hts
              have hr2c := wf_count htw
              have hrb := rebalance_wf (c := lc + r2.count + 1)
                (v := w) hl htw
              refine ⟨hrb.1, ?_⟩
              rw [hrb.2]
              simp only [size_node] at *
              omega
    · -- gt: remove from the left subtree
      have ih := ihl hl i
      rcases hrec : l.take_node_by_index i with ⟨res, l2⟩
      rw [hrec] at ih
      dsimp only at ih
      obtain ⟨ihw, ihs⟩ := ih
      have hlc2 := wf_count ihw
      rcases res with _ | nd
      · simp only [Option.isSome_none, Bool.toNat_false, Nat.add_zero] at ihs
        simp only [Ref.take_node_by_index, hcmp, hrec, Option.isSome_none, Bool.false_eq_true,
          if_false, Bool.toNat_false]
        exact ⟨⟨by omega, ihw, hr⟩, by simp only [size_node]; omega⟩
      · simp only [Option.isSome_some, Bool.toNat_true] at ihs
        have hrb := rebalance_wf (c := c) (v := v) ihw hr
        simp only [Ref.take_node_by_index, hcmp, hrec, Option.isSome_some, if_true,
          Bool.toNat_true]
        exact ⟨hrb.1, by rw [hrb.2]; simp only [size_node]; omega⟩

theorem get_by_index_none_iff (t : Ref α) : t.wf →
    ∀ i : Nat, (t.get_by_index i = none ↔ t.count ≤ i) := by
  induction t with
  | nil c =>
    intro h i
    simp only [wf_nil_iff] at h
    subst h
    simp [Ref.get_by_index]
  | node c v l r ihl ihr =>
    intro h i
    simp only [wf_node_iff] at h
    obtain ⟨hc, hl, hr⟩ := h
    have hlc := wf_count hl
    have hrc := wf_count hr
    rcases hcmp : rcmp l.count i with _ | _ | _
    · have hlt := rcmp_lt_iff.mp hcmp
      simp only [Ref.get_by_index, hcmp, count_node]
      rw [ihr hr (i - 1 - l.count)]
      omega
    · have he := rcmp_eq_iff.mp hcmp
      simp only [Ref.get_by_index, hcmp, count_node]
      simp only [reduceCtorEq, false_iff, not_le]
      omega
    · have hgt := rcmp_gt_iff.mp hcmp
      simp only [Ref.get_by_index, hcmp, count_node]
      rw [ihl hl i]
      omega

theorem take_key_not_mem [LinearOrder α] (k : α) (t : Ref α) : k ∉ t.inorder →
    t.take_node_by_key k = (none, t) := by
  induction t with
  | nil c => intro _; rfl
  | node c v l r ihl ihr =>
    intro h
    simp only [inorder_node, List.mem_append, List.mem_cons] at h
    push_neg at h
    obtain ⟨hnl, hnv, hnr⟩ := h
    rcases hcmp : rcmp v k with _ | _ | _
    · have hre := ihr hnr
      simp only [Ref.take_node_by_key, hcmp, hre, Option.isSome_none, Bool.false_eq_true,
        if_false]
    · exact absurd (rcmp_eq_iff.mp hcmp).symm hnv
    · have hle := ihl hnl
      simp only [Ref.take_node_by_key, hcmp, hle, Option.isSome_none, Bool.false_eq_true,
        if_false]

theorem take_idx_oob (t : Ref α) : t.wf → ∀ i : Nat, t.count ≤ i →
    t.take_node_by_index i = (none, t) := by
  induction t with
  | nil c => intro _ i _; rfl
  | node c v l r ihl ihr =>
    intro h i hi
    simp only [wf_node_iff] at h
    obtain ⟨hc, hl, hr⟩ := h
    simp only [count_node] at hi
    have hcm : rcmp l.count i = Ordering.lt := rcmp_lt_iff.mpr (by omega)
    have hre := ihr hr (i - l.count - 1) (by omega)
    simp only [Ref.take_node_by_index, hcm, hre, Option.isSome_none, Bool.false_eq_true,
      if_false]

end Ref

theorem new_root_wf {α : Type} : (HiSet.new (α := α)).root.wf := rfl

theorem applyOp_wf {α : Type} [LinearOrder α] (s : HiSet α) (h : s.root.wf) (op : Op α) :
    (s.applyOp op).root.wf := by
  cases op with
  | ins v => exact (Ref.insert_wf v s.root h).1
  | takeKey k => exact (Ref.take_key_wf k s.root h).1
  | takeIdx i => exact (Ref.take_idx_wf s.root h i).1
  | tFirst => exact (Ref.take_leftmost_wf s.root h).1
  | tLast => exact (Ref.take_rightmost_wf s.root h).1

theorem applyOps_wf {α : Type} [LinearOrder α] (ops : List (Op α)) :
    ∀ s : HiSet α, s.root.wf → (s.applyOps ops).root.wf := by
  induction ops with
  | nil => exact fun s h => h
  | cons op ops ih => exact fun s h => ih _ (applyOp_wf s h op)

theorem reachable_wf {α : Type} [LinearOrder α] {s : HiSet α} (h : Reachable s) :
    s.root.wf := by
  obtain ⟨ops, rfl⟩ := h
  exact applyOps_wf ops _ new_root_wf

/-! ### Claim theorems -/

/-- Claim C1: refuted by the code.  After inserting 0,1,2,3, take_last
returns Some 2 and decrements len, although the strictly greater value 3 is
still stored in the set, so take_last does not remove and return the
greatest value: take_rightmost_node recurses with take_leftmost_node on the
right subtree, removing the successor of the root instead of the maximum. -/
theorem C1_take_last_not_greatest :
    ((HiSet.new.applyOps [Op.ins 0, Op.ins 1, Op.ins 2, Op.ins 3]).take_last).1 = some 2 ∧
    (3 : Nat) ∈ (HiSet.new.applyOps [Op.ins 0, Op.ins 1, Op.ins 2, Op.ins 3]).root.inorder ∧
    (2 : Nat) < 3 := by decide

/-- Claim C2: refuted by the code.  After inserting 10,5,15,3,7,12,8 and
removing the two-child root 10 by key, the replacement is drawn from the
larger left subtree with the broken take_rightmost_node, which returns 7
(not the left maximum 8); the in-order traversal of the resulting tree is
3,5,8,7,12,15, which is not non-decreasing. -/
theorem C2_order_invariant_violated :
    (HiSet.new.applyOps brokenOps).root.inorder = [3, 5, 8, 7, 12, 15] ∧
    ¬ List.Sorted (· ≤ ·) ((HiSet.new.applyOps brokenOps).root.inorder) := by decide

/-- Claim C3: refuted by the code.  After inserting 10,2,13,1,12,14,11 and
then calling take_first, the single corrective rotation performed on the way
back up leaves the root with balance factor -2, outside the claimed range. -/
theorem C3_balance_invariant_violated :
    ¬ (HiSet.new.applyOps balOps).root.allBalanced ∧
    (HiSet.new.applyOps balOps).root.balance = -2 := by decide

/-- Claim C4: after every public operation on a set reachable from empty,
every reachable subtree reference satisfies count = 1 + left.count +
right.count when it owns a node and count = 0 when empty (Ref.wf holds
recursively from the root), and consequently len equals the number of
stored values. -/
theorem C4_count_invariant {α : Type} [LinearOrder α] (s : HiSet α) (h : Reachable s) :
    s.root.wf ∧ s.len = s.root.size :=
  ⟨reachable_wf h, Ref.wf_count (reachable_wf h)⟩

theorem C4_count_invariant_witness :
    Reachable c4demo ∧ (c4demo.root.wf ∧ c4demo.len = c4demo.root.size) :=
  ⟨⟨[.ins 3, .ins 1, .ins 2, .takeIdx 1, .ins 5], rfl⟩,
   C4_count_invariant c4demo ⟨[.ins 3, .ins 1, .ins 2, .takeIdx 1, .ins 5], rfl⟩⟩

/-- Claim C5: refuted by the code.  On the reachable set produced by
brokenOps the order invariant is already broken, and inserting the value 8,
which is stored in the set, returns true and grows len by 1: insert does not
return true only for values that were absent. -/
theorem C5_duplicate_insert_returns_true :
    (8 : Nat) ∈ (HiSet.new.applyOps brokenOps).root.inorder ∧
    ((HiSet.new.applyOps brokenOps).insert 8).1 = true ∧
    ((HiSet.new.applyOps brokenOps).insert 8).2.len
      = (HiSet.new.applyOps brokenOps).len + 1 := by decide

/-- Claim C6: refuted by the code.  On the reachable set produced by
brokenOps, 2 < len, yet get_by_index 2 returns 8 while the value of sorted
rank 2 among the stored values is 7. -/
theorem C6_get_by_index_not_rank :
    (2 : Nat) < (HiSet.new.applyOps brokenOps).len ∧
    (HiSet.new.applyOps brokenOps).get_by_index 2 = some 8 ∧
    ((HiSet.new.applyOps brokenOps).root.inorder.insertionSort (· ≤ ·))[2]? = some 7 := by
  decide

/-- Claim C7: refuted by the code.  On the reachable set produced by
brokenOps the value stored at sorted rank 2 is 7, but index_of 7 returns
Some 3, not Some 2. -/
theorem C7_index_of_not_rank :
    ((HiSet.new.applyOps brokenOps).root.inorder.insertionSort (· ≤ ·))[2]? = some 7 ∧
    (HiSet.new.applyOps brokenOps).index_of 7 = some 3 ∧
    (2 : Nat) ≠ 3 := by decide

/-- Claim C8: on any reachable set, take with an absent key and
take_by_index with an index at or beyond len both return none and leave the
set (shape, cached counts and stored values) exactly unchanged. -/
theorem C8_not_found_untouched {α : Type} [LinearOrder α] (s : HiSet α) (h : Reachable s)
    (k : α) (i : Nat) (hk : k ∉ s.root.inorder) (hi : s.len ≤ i) :
    s.take k = (none, s) ∧ s.take_by_index i = (none, s) := by
  have hwf := reachable_wf h
  have h1 := Ref.take_key_not_mem k s.root hk
  have h2 := Ref.take_idx_oob s.root hwf i hi
  constructor
  · unfold HiSet.take
    rw [h1]
    rfl
  · unfold HiSet.take_by_index
    rw [h2]
    rfl

theorem C8_not_found_untouched_witness :
    Reachable c8demo ∧ (42 : Nat) ∉ c8demo.root.inorder ∧ c8demo.len ≤ 10 ∧
    (c8demo.take 42 = (none, c8demo) ∧ c8demo.take_by_index 10 = (none, c8demo)) :=
  ⟨⟨[.ins 1, .ins 2, .ins 3], rfl⟩, by decide, by decide,
   C8_not_found_untouched c8demo ⟨[.ins 1, .ins 2, .ins 3], rfl⟩ 42 10 (by decide) (by decide)⟩

/-- Claim C9 counterexample: on the reachable singleton set containing 0,
the iterator range(1..3) has start 1 and stop 3, yet its first forward step
already yields none: the sequence is exhausted although start and stop
differ, refuting that exhaustion happens exactly when start equals stop. -/
theorem C9_exhaustion_counterexample :
    ((((HiSet.new.applyOps [Op.ins 0]).range (Bound.included 1) (Bound.excluded 3)).next).1
      = none) ∧
    ((HiSet.new.applyOps [Op.ins 0]).range (Bound.included 1) (Bound.excluded 3)).start = 1 ∧
    ((HiSet.new.applyOps [Op.ins 0]).range (Bound.included 1) (Bound.excluded 3)).stop = 3 := by
  decide

/-- Claim C9 (amended): range iterates the half-open index window from start
to stop: a forward step on a window with start < stop returns the element at
index start and increments start, a backward step decrements stop and
returns the element at the new stop, both directions are independent, and a
step yields none exactly when start = stop or start is at or beyond len
(for windows contained in the set, exactly when start = stop); in
particular, on the set built from 0,1,2,3,4,5,6, range(2..=5) yields
2,3,4,5 forward and 5,4,3,2 backward. -/
theorem C9_range_window {α : Type} [LinearOrder α] (s : HiSet α) (h : Reachable s)
    (a b : Nat) :
    (a < b → (HiSetIterator.mk s a b).next
        = (s.get_by_index a, HiSetIterator.mk s (a + 1) b)) ∧
    (b ≤ a → (HiSetIterator.mk s a b).next = (none, HiSetIterator.mk s a b)) ∧
    (a < b → (HiSetIterator.mk s a b).next_back
        = (s.get_by_index (b - 1), HiSetIterator.mk s a (b - 1))) ∧
    (b ≤ a → (HiSetIterator.mk s a b).next_back = (none, HiSetIterator.mk s a b)) ∧
    (((HiSetIterator.mk s a b).next.1 = none) ↔ (b ≤ a ∨ s.len ≤ a)) ∧
    (rangeDemo.range (Bound.included 2) (Bound.included 5)).collect 10 = [2, 3, 4, 5] ∧
    (rangeDemo.range (Bound.included 2) (Bound.included 5)).collectBack 10 = [5, 4, 3, 2] := by
  have hwf := reachable_wf h
  refine ⟨?_, ?_, ?_, ?_, ?_, by decide, by decide⟩
  · intro hab
    simp only [HiSetIterator.next, ge_iff_le, not_le.mpr hab, if_false]
  · intro hab
    simp only [HiSetIterator.next, ge_iff_le, if_pos hab]
  · intro hab
    simp only [HiSetIterator.next_back, ge_iff_le, not_le.mpr hab, if_false]
  · intro hab
    simp only [HiSetIterator.next_back, ge_iff_le, if_pos hab]
  · by_cases hab : b ≤ a
    · simp only [HiSetIterator.next, ge_iff_le, if_pos hab]
      simp [hab]
    · simp only [HiSetIterator.next, ge_iff_le, if_neg hab]
      rw [show (s.get_by_index a = none) = (s.root.get_by_index a = none) from rfl,
        Ref.get_by_index_none_iff s.root hwf a]
      simp only [HiSet.len, iff_iff_implies_and_implies]
      constructor
      · intro hcount
        exact Or.inr hcount
      · intro hor
        rcases hor with hba | hc
        · exact absurd hba hab
        · exact hc

theorem C9_range_window_witness :
    Reachable rangeDemo ∧
    ((2 < 6 → (HiSetIterator.mk rangeDemo 2 6).next
        = (rangeDemo.get_by_index 2, HiSetIterator.mk rangeDemo (2 + 1) 6)) ∧
    (6 ≤ 2 → (HiSetIterator.mk rangeDemo 2 6).next = (none, HiSetIterator.mk rangeDemo 2 6)) ∧
    (2 < 6 → (HiSetIterator.mk rangeDemo 2 6).next_back
        = (rangeDemo.get_by_index (6 - 1), HiSetIterator.mk rangeDemo 2 (6 - 1))) ∧
    (6 ≤ 2 → (HiSetIterator.mk rangeDemo 2 6).next_back
        = (none, HiSetIterator.mk rangeDemo 2 6)) ∧
    (((HiSetIterator.mk rangeDemo 2 6).next.1 = none) ↔ (6 ≤ 2 ∨ rangeDemo.len ≤ 2)) ∧
    (rangeDemo.range (Bound.included 2) (Bound.included 5)).collect 10 = [2, 3, 4, 5] ∧
    (rangeDemo.range (Bound.included 2) (Bound.included 5)).collectBack 10 = [5, 4, 3, 2]) :=
  ⟨⟨(List.range 7).map Op.ins, rfl⟩,
   C9_range_window rangeDemo ⟨(List.range 7).map Op.ins, rfl⟩ 2 6⟩

/-- Claim C10: the bound normalization in range computes index + 1 with
unchecked usize arithmetic: for a start bound Excluded(usize MAX) or an end
bound Included(usize MAX) the addition overflows, wrapping the window edge
to 0 instead of the intended value 2 to the 64 (and panicking under overflow
checks), so range does not realize the intended window for those bounds. -/
theorem C10_range_bound_overflow :
    ((HiSet.new (α := Nat)).range (Bound.excluded (usizeSize - 1)) Bound.unbounded).start
      = 0 ∧
    ((HiSet.new (α := Nat)).range Bound.unbounded (Bound.included (usizeSize - 1))).stop
      = 0 ∧
    usizeSize - 1 + 1 ≠ 0 := by
  refine ⟨?_, ?_, ?_⟩
  · show (usizeSize - 1 + 1) % usizeSize = 0
    decide
  · show (usizeSize - 1 + 1) % usizeSize = 0
    decide
  · decide

end Hitree
